import Mathlib

/-!
Verification of the sliding-piece puzzle planning engine (`src/ai/ai.c`,
`src/ai/queue.c`, `src/ai/queue.h`) by a shallow embedding in Lean.

States (`gate_t`) become the `Gate` structure; the byte/bit buffer of the
packed encoding becomes a `List Bool` in LSB-first bit order; the radix set
and the k-subset novelty trees (whose C source, `radix.c`, is not part of
the repository snapshot) are modelled from the specification as sets of bit
strings; the external move collaborator `move_location` (also not in the
snapshot) is modelled from the specification as any function satisfying
`MoveSpec`.  The three search algorithms `algo1`, `algo2`, `algo3` are
translated as fuelled loop functions returning their statistics counters.
-/

/-- The shallow embedding of `gate_t`: grid dimensions, the mutable map,
the immutable background `map_save`, piece and player coordinates and the
solution string (`none` models a NULL `soln` pointer). -/
structure Gate where
  lines : Nat
  num_chars_map : Nat
  map : List (List Char)
  map_save : List (List Char)
  num_pieces : Nat
  piece_x : List Nat
  piece_y : List Nat
  player_x : Nat
  player_y : Nat
  soln : Option (List Char)
deriving Repr, DecidableEq

/-- Modelled from the spec: `bits_needed(n)` from `utils.c` (not in the
repository snapshot), "smallest k ≥ 1 such that 2^k > n-1", computed by a
bounded upward search (2^n ≥ n guarantees the fuel suffices). -/
def calcBitsGo (n : Nat) : Nat → Nat → Nat
  | 0, k => k
  | fuel + 1, k => if n ≤ 2 ^ k then k else calcBitsGo n fuel (k + 1)

/-- Modelled from the spec: `bits_needed` / `calcBits`. -/
def calcBits (n : Nat) : Nat := calcBitsGo n n 1

/-- The `j`-th bit (LSB first) of the binary encoding of `n` in `k` bits,
as written by the `bitOn`/`bitOff` loop of `packMap`. -/
def natBits (k n : Nat) : List Bool := (List.range k).map n.testBit

/-- Translation of `packMap` (ai.c): for each piece `i` in order, write the
piece id, then `piece_y[i]`, then `piece_x[i]`, each as an LSB-first field of
`calcBits` many bits.  The byte buffer is abstracted to the list of its
bits in write order. -/
def packMapBits (g : Gate) : List Bool :=
  ((List.range g.num_pieces).map (fun i =>
      natBits (calcBits g.num_pieces) i ++
      natBits (calcBits g.lines) (g.piece_y.getD i 0) ++
      natBits (calcBits (g.num_chars_map / g.lines)) (g.piece_x.getD i 0))).flatten

/-- Translation of `getPackedSize` (ai.c): `atomSize * num_pieces`, where
`atomSize = pBits + hBits + wBits`.  Note the C function returns this BIT
count (`bitCount`), despite its doc comment promising bytes. -/
def getPackedSize (g : Gate) : Nat :=
  (calcBits g.num_pieces + calcBits g.lines +
    calcBits (g.num_chars_map / g.lines)) * g.num_pieces

/-- The per-cell test of `winning_state` (ai.c line 798): the cell holds an
unsatisfied goal glyph, i.e. `'G'` or a letter in `'I'..'Q'`. -/
def unsatGoal (c : Char) : Bool :=
  c == 'G' || (decide ('I' ≤ c) && decide (c ≤ 'Q'))

/-- Translation of `winning_state` (ai.c): scan each row `i < lines`; the
inner loop runs while `map_save[i][j]` is not the terminator, so its extent
is the length of the background row; the tested character is `map[i][j]`. -/
def winning_state (g : Gate) : Bool :=
  (List.range g.lines).all (fun i =>
    (List.range (g.map_save.getD i []).length).all (fun j =>
      !unsatGoal ((g.map.getD i []).getD j ' ')))

/-- Translation of `duplicate_state` (ai.c): a deep copy; the piece arrays
are copied for the first `num_pieces` entries (`memcpy` of
`sizeof(int) * num_pieces`); a NULL or empty parent solution yields a fresh
empty string, otherwise the string is copied. -/
def duplicate_state (gate : Gate) : Gate :=
  { gate with
    piece_x := gate.piece_x.take gate.num_pieces
    piece_y := gate.piece_y.take gate.num_pieces
    soln :=
      match gate.soln with
      | none => some []
      | some s => if s.length = 0 then some [] else some s }

/-- Piece id of a piece character, `move_piece - '0'` (queue.c line 60). -/
def pieceIndex (c : Char) : Nat := c.toNat - 48

/-- The `pieceNames` array of ai.c. -/
def pieceName (p : Nat) : Char :=
  ['0', '1', '2', '3', '4', '5', '6', '7', '8', '9'].getD p '0'

/-- The `directions` array of ai.c. -/
def dirChars : List Char := ['u', 'd', 'l', 'r']

/-- The solution string written by `applyAction` (queue.c lines 74-84):
the parent's solution (NULL read as length 0) extended by the move pair. -/
def solnAppend (old : Option (List Char)) (p d : Char) : List Char :=
  (match old with | none => [] | some s => s) ++ [p, d]

/-- The type of the external move collaborator `move_location`. -/
abbrev Mv := Gate → Char → Char → Gate

/-- The child state built by `applyAction` (queue.c lines 63-84):
duplicate the state, let `move_location` act on the duplicate, copy back
the scalar player fields and the first `num_pieces` piece coordinates
(the map rows are shared with the collaborator's result), and append the
move pair to the solution string. -/
def applyChild (move_location : Mv) (cur : Gate)
    (move_piece move_direction : Char) : Gate :=
  let dup := duplicate_state cur
  let temp := move_location dup move_piece move_direction
  { dup with
    player_x := temp.player_x
    player_y := temp.player_y
    map := temp.map
    piece_x := temp.piece_x.take dup.num_pieces ++ dup.piece_x.drop dup.num_pieces
    piece_y := temp.piece_y.take dup.num_pieces ++ dup.piece_y.drop dup.num_pieces
    soln := some (solnAppend cur.soln move_piece move_direction) }

/-- Translation of `applyAction` (queue.c): build the child and report 1
iff the moved piece's coordinates differ from their values in the parent
(recorded as `prev_x`/`prev_y` before the duplication). -/
def applyAction (move_location : Mv) (cur : Gate)
    (move_piece move_direction : Char) : Gate × Nat :=
  let idx := pieceIndex move_piece
  let ns := applyChild move_location cur move_piece move_direction
  if ns.piece_x.getD idx 0 ≠ cur.piece_x.getD idx 0 ∨
      ns.piece_y.getD idx 0 ≠ cur.piece_y.getD idx 0 then
    (ns, 1)
  else
    (ns, 0)

/-- New coordinates one cell away from `(x, y)` in direction `d`
(spec §6: up decreases y, down increases y, left decreases x, right
increases x). -/
def unitStep (d : Char) (x y x2 y2 : Nat) : Prop :=
  (d = 'u' ∧ x2 = x ∧ y2 + 1 = y) ∨
  (d = 'd' ∧ x2 = x ∧ y2 = y + 1) ∨
  (d = 'l' ∧ x2 + 1 = x ∧ y2 = y) ∨
  (d = 'r' ∧ x2 = x + 1 ∧ y2 = y)

/-- Equality of the first `n` piece coordinates of two states. -/
def coordsEq (g1 g2 : Gate) (n : Nat) : Prop :=
  ∀ j < n, g1.piece_x.getD j 0 = g2.piece_x.getD j 0 ∧
    g1.piece_y.getD j 0 = g2.piece_y.getD j 0

/-- Modelled from the spec: the contract of the external collaborator
`move_one_step` / `move_location` (not in the repository snapshot, spec
§4.5): it preserves the piece-array lengths and either leaves every piece
coordinate unchanged (wall, boundary or another piece blocked the motion)
or moves exactly the named piece by one cell in the named direction. -/
def MoveSpec (f : Mv) : Prop :=
  ∀ g p d,
    (f g p d).piece_x.length = g.piece_x.length ∧
    (f g p d).piece_y.length = g.piece_y.length ∧
    (coordsEq (f g p d) g g.num_pieces ∨
      ((∀ j < g.num_pieces, j ≠ pieceIndex p →
          (f g p d).piece_x.getD j 0 = g.piece_x.getD j 0 ∧
          (f g p d).piece_y.getD j 0 = g.piece_y.getD j 0) ∧
        unitStep d (g.piece_x.getD (pieceIndex p) 0) (g.piece_y.getD (pieceIndex p) 0)
          ((f g p d).piece_x.getD (pieceIndex p) 0)
          ((f g p d).piece_y.getD (pieceIndex p) 0)))

/-- A move collaborator that always reports the motion blocked; it
satisfies `MoveSpec` and is used for concrete evaluation. -/
def mv0 : Mv := fun g _ _ => g

/-- The iteration space of the successor loops of all three algorithms:
pieces `0..num_pieces-1` in order, each with the four directions in the
order of the `directions` array. -/
def candList (n : Nat) : List (Nat × Char) :=
  ((List.range n).map (fun p => dirChars.map (fun d => (p, d)))).flatten

/-- Statistics of a finished run, as printed by the algorithms:
`dequeued` is the `Expanded nodes` counter, `enqueued` the
`Generated nodes` counter, `duplicatedNodes` the `Duplicated nodes`
counter; `queueLen` is the number of states still in the open list when
the search loop exits (before the drain). -/
structure RunStats where
  dequeued : Nat
  enqueued : Nat
  duplicatedNodes : Nat
  soln : Option (List Char)
  queueLen : Nat
  hasWon : Bool
deriving Repr, DecidableEq

/-- Loop state of Algorithm 1: the open list and the `enqueued` counter. -/
structure St1 where
  queue : List Gate
  enqueued : Nat
deriving Repr, DecidableEq

/-- One candidate `(piece, direction)` of the successor loop of `algo1`
(ai.c lines 248-268): a rejected move is dropped; an accepted child is
counted and enqueued. -/
def algo1Step (f : Mv) (cur : Gate) (st : St1) (pd : Nat × Char) : St1 :=
  let r := applyAction f cur (pieceName pd.1) pd.2
  if r.2 = 0 then st
  else { queue := st.queue ++ [r.1], enqueued := st.enqueued + 1 }

/-- The BFS loop of `algo1` (ai.c lines 227-272), with explicit fuel:
pop, count the expansion, test the goal, otherwise run the successor
loop and recurse.  `none` means the fuel ran out before termination. -/
def algo1Loop (f : Mv) (numPieces : Nat) :
    Nat → St1 → Nat → Option RunStats
  | 0, _, _ => none
  | fuel + 1, st, deq =>
    match st.queue with
    | [] => some ⟨deq, st.enqueued, 0, none, 0, false⟩
    | cur :: rest =>
      if winning_state cur then
        some ⟨deq + 1, st.enqueued, 0, cur.soln, rest.length, true⟩
      else
        let st2 := (candList numPieces).foldl (algo1Step f cur) ⟨rest, st.enqueued⟩
        algo1Loop f numPieces fuel st2 (deq + 1)

/-- Translation of `algo1` (ai.c): push a duplicate of the initial state
and run the BFS loop; `duplicated` is always 0 and the initial state is
not counted as generated. -/
def algo1Run (f : Mv) (fuel : Nat) (init : Gate) : Option RunStats :=
  algo1Loop f init.num_pieces fuel ⟨[duplicate_state init], 0⟩ 0

/-- Statistics of a finished `algo2` run, extended by two event counters
used to audit the counter placement: `childPushes` counts the enqueue
operations performed on child states, `presentHits` counts the children
the radix set reported PRESENT. -/
structure Algo2Stats where
  dequeued : Nat
  enqueued : Nat
  duplicatedNodes : Nat
  soln : Option (List Char)
  queueLen : Nat
  hasWon : Bool
  childPushes : Nat
  presentHits : Nat
deriving Repr, DecidableEq

/-- Loop state of Algorithm 2: the exact-key radix set (modelled from the
spec as the list of inserted packed keys; `radix.c` is not in the
repository snapshot), the open list, and the counters. -/
structure St2 where
  tree : List (List Bool)
  queue : List Gate
  enqueued : Nat
  duplicatedNodes : Nat
  childPushes : Nat
  presentHits : Nat
deriving Repr, DecidableEq

/-- One candidate of the successor loop of `algo2` (ai.c lines 417-448):
a rejected move is dropped; an accepted child is packed and looked up;
a PRESENT child is counted as duplicated and dropped; otherwise the key
is inserted and the child is counted as generated and enqueued. -/
def algo2Step (f : Mv) (cur : Gate) (st : St2) (pd : Nat × Char) : St2 :=
  let r := applyAction f cur (pieceName pd.1) pd.2
  if r.2 = 0 then st
  else
    let key := packMapBits r.1
    if key ∈ st.tree then
      { st with duplicatedNodes := st.duplicatedNodes + 1,
                presentHits := st.presentHits + 1 }
    else
      { st with tree := key :: st.tree,
                queue := st.queue ++ [r.1],
                enqueued := st.enqueued + 1,
                childPushes := st.childPushes + 1 }

/-- The BFS loop of `algo2` (ai.c lines 396-453), with explicit fuel. -/
def algo2Loop (f : Mv) (numPieces : Nat) :
    Nat → St2 → Nat → Option Algo2Stats
  | 0, _, _ => none
  | fuel + 1, st, deq =>
    match st.queue with
    | [] => some ⟨deq, st.enqueued, st.duplicatedNodes, none, 0, false,
                  st.childPushes, st.presentHits⟩
    | cur :: rest =>
      if winning_state cur then
        some ⟨deq + 1, st.enqueued, st.duplicatedNodes, cur.soln, rest.length,
              true, st.childPushes, st.presentHits⟩
      else
        let st2 := (candList numPieces).foldl (algo2Step f cur) { st with queue := rest }
        algo2Loop f numPieces fuel st2 (deq + 1)

/-- Translation of `algo2` (ai.c): enqueue a duplicate of the initial
state, count it as generated, insert its packed key into the radix set,
then run the BFS loop. -/
def algo2Run (f : Mv) (fuel : Nat) (init : Gate) : Option Algo2Stats :=
  let dup := duplicate_state init
  algo2Loop f init.num_pieces fuel
    ⟨[packMapBits dup], [dup], 1, 0, 0, 0⟩ 0

/-- The atoms of a packed key: `n` consecutive chunks of `atomSize` bits,
as sliced by the k-subset radix tree (modelled from the spec; `radix.c`
is not in the repository snapshot). -/
def atomChunks (atomSize n : Nat) (key : List Bool) : List (List Bool) :=
  (List.range n).map (fun i => (key.drop (i * atomSize)).take atomSize)

/-- All subkeys of subset size `s`: the concatenation of every
`s`-combination (in index order) of the `n` atoms of the key. -/
def subkeys (atomSize n s : Nat) (key : List Bool) : List (List Bool) :=
  ((atomChunks atomSize n key).sublistsLen s).map List.flatten

/-- Modelled from the spec: `insertRadixTreenCr` — insert every subkey of
subset size `s` of `key` into the tree. -/
def insertAllNCr (tree : List (List Bool)) (atomSize n s : Nat)
    (key : List Bool) : List (List Bool) :=
  subkeys atomSize n s key ++ tree

/-- Modelled from the spec: the NOTPRESENT outcome of `checkPresentnCr` —
true iff at least one subkey of subset size `s` of `key` is not in the
tree. -/
def anyMissingNCr (tree : List (List Bool)) (atomSize n s : Nat)
    (key : List Bool) : Bool :=
  (subkeys atomSize n s key).any (fun c => decide (c ∉ tree))

/-- The novelty loop of `algo3` (ai.c lines 641-649), processing subset
sizes `s, s+1, ...` for `rem` more sizes: the check against tree `s` is
performed before this key's subkeys are inserted into tree `s`, and the
insertion happens whether or not the check reported a missing subkey.
The tree for subset size `s` is stored at index `s - 1`. -/
def noveltyGo (atomSize n : Nat) (key : List Bool) :
    Nat → Nat → Bool → List (List (List Bool)) → Bool × List (List (List Bool))
  | 0, _, novel, trees => (novel, trees)
  | rem + 1, s, novel, trees =>
    let t := trees.getD (s - 1) []
    let novel2 := novel || anyMissingNCr t atomSize n s key
    let trees2 := trees.set (s - 1) (insertAllNCr t atomSize n s key)
    noveltyGo atomSize n key rem (s + 1) novel2 trees2

/-- The full novelty check of a candidate key at width `w`
(ai.c lines 641-649): subset sizes 1 through `w`. -/
def noveltyLoop (atomSize n w : Nat) (key : List Bool)
    (trees : List (List (List Bool))) : Bool × List (List (List Bool)) :=
  noveltyGo atomSize n key w 1 false trees

/-- The initial insertion loop of `algo3` (ai.c lines 594-596): insert the
packed initial key into every tree, subset sizes 1 through `w`, without
any check. -/
def insertGo (atomSize n : Nat) (key : List Bool) :
    Nat → Nat → List (List (List Bool)) → List (List (List Bool))
  | 0, _, trees => trees
  | rem + 1, s, trees =>
    insertGo atomSize n key rem (s + 1)
      (trees.set (s - 1) (insertAllNCr (trees.getD (s - 1) []) atomSize n s key))

/-- Loop state of Algorithm 3 inside one width iteration: the `w` novelty
trees (tree for subset size `s` at index `s - 1`), the open list, and the
accumulated counters. -/
structure St3 where
  trees : List (List (List Bool))
  queue : List Gate
  enqueued : Nat
  duplicatedNodes : Nat
deriving Repr, DecidableEq

/-- One candidate of the successor loop of `algo3` (ai.c lines 621-661):
a rejected move is dropped; an accepted child is packed, the novelty loop
runs (checking and then unconditionally inserting at every subset size),
and the child is enqueued and counted as generated iff it was novel,
otherwise counted as duplicated and dropped. -/
def algo3Step (f : Mv) (atomSize n w : Nat) (cur : Gate) (st : St3)
    (pd : Nat × Char) : St3 :=
  let r := applyAction f cur (pieceName pd.1) pd.2
  if r.2 = 0 then st
  else
    let key := packMapBits r.1
    let nt := noveltyLoop atomSize n w key st.trees
    if nt.1 then
      { trees := nt.2, queue := st.queue ++ [r.1],
        enqueued := st.enqueued + 1, duplicatedNodes := st.duplicatedNodes }
    else
      { trees := nt.2, queue := st.queue,
        enqueued := st.enqueued, duplicatedNodes := st.duplicatedNodes + 1 }

/-- The BFS loop of one width iteration of `algo3` (ai.c lines 600-666),
with explicit fuel. -/
def algo3BFS (f : Mv) (atomSize n w : Nat) :
    Nat → St3 → Nat → Option RunStats
  | 0, _, _ => none
  | fuel + 1, st, deq =>
    match st.queue with
    | [] => some ⟨deq, st.enqueued, st.duplicatedNodes, none, 0, false⟩
    | cur :: rest =>
      if winning_state cur then
        some ⟨deq + 1, st.enqueued, st.duplicatedNodes, cur.soln, rest.length, true⟩
      else
        let st2 := (candList n).foldl (algo3Step f atomSize n w cur) { st with queue := rest }
        algo3BFS f atomSize n w fuel st2 (deq + 1)

/-- One width iteration of `algo3` (ai.c lines 572-666): build `w` fresh
trees, enqueue a duplicate of the initial state and count it as
generated, insert the initial key into every tree, and run the BFS loop
with the counters accumulated so far. -/
def algo3Iter (f : Mv) (fuel : Nat) (init : Gate) (atomSize n : Nat)
    (w enq dup deq : Nat) : Option RunStats :=
  let d0 := duplicate_state init
  let key := packMapBits d0
  let trees := insertGo atomSize n key w 1 (List.replicate w [])
  algo3BFS f atomSize n w fuel ⟨trees, [d0], enq + 1, dup⟩ deq

/-- The outer width loop of `algo3` (ai.c lines 572-686): widths
`w, w+1, ...` for `wRem` more widths; stop early when a width iteration
finds the goal; when all widths are exhausted, report the accumulated
counters with an empty open list and no solution. -/
def algo3Outer (f : Mv) (fuel : Nat) (init : Gate) (atomSize n : Nat) :
    Nat → Nat → Nat → Nat → Nat → Option RunStats
  | 0, _, enq, dup, deq => some ⟨deq, enq, dup, none, 0, false⟩
  | wRem + 1, w, enq, dup, deq =>
    match algo3Iter f fuel init atomSize n w enq dup deq with
    | none => none
    | some out =>
      if out.hasWon then some out
      else algo3Outer f fuel init atomSize n wRem (w + 1)
        out.enqueued out.duplicatedNodes out.dequeued

/-- Translation of `algo3` (ai.c): iterate widths 1 through `num_pieces`
over the BFS loop with novelty pruning. -/
def algo3Run (f : Mv) (fuel : Nat) (init : Gate) : Option RunStats :=
  let n := init.num_pieces
  let atomSize := calcBits n + calcBits init.lines +
    calcBits (init.num_chars_map / init.lines)
  algo3Outer f fuel init atomSize n n 1 0 0 0

/-- The `Number of nodes expanded per second` statistic as printed by all
three algorithms (ai.c lines 315, 496, 720): `(dequeued + 1) / elapsed`,
modelled over the rationals. -/
def nodesExpandedPerSecond (dequeued : Nat) (elapsed : ℚ) : ℚ :=
  (dequeued + 1) / elapsed

/-! ### Concrete states used for evaluation -/

/-- A 1-by-1 map with no unsatisfied goal: already winning, one piece. -/
def gWin : Gate :=
  ⟨1, 1, [[' ']], [[' ']], 1, [0], [0], 0, 0, none⟩

/-- A 1-by-1 map whose only cell is an unsatisfied goal: never winning,
one piece. -/
def gNW : Gate :=
  ⟨1, 1, [['G']], [['G']], 1, [0], [0], 0, 0, none⟩

/-- A non-winning map with zero pieces. -/
def gNW0 : Gate :=
  ⟨1, 1, [['G']], [['G']], 0, [], [], 0, 0, none⟩

/-- A 2-by-2 map with one piece: the packed encoding needs
`1 + 1 + 1 = 3` bits, i.e. 1 byte when rounded up. -/
def gPack : Gate :=
  ⟨2, 4, [[' ', ' '], [' ', ' ']], [[' ', ' '], [' ', ' ']], 1, [0], [0], 0, 0, none⟩

/-! ### Claim C3: the terminal predicate -/

/-- The boolean cell test of `winning_state` agrees with the declarative
unsatisfied-goal alphabet. -/
lemma unsatGoal_iff (c : Char) :
    unsatGoal c = true ↔ (c = 'G' ∨ ('I' ≤ c ∧ c ≤ 'Q')) := by
  simp [unsatGoal]

/-- C3: for a state whose `map` has `lines` rows, each row as long as the
corresponding background row, `winning_state` returns true iff no cell of
`map` contains `'G'` or a character in `'I'..'Q'`. -/
theorem winning_state_iff (g : Gate)
    (hm : g.map.length = g.lines)
    (hrow : ∀ i < g.lines, (g.map.getD i []).length = (g.map_save.getD i []).length) :
    winning_state g = true ↔
      ∀ row ∈ g.map, ∀ c ∈ row, ¬(c = 'G' ∨ ('I' ≤ c ∧ c ≤ 'Q')) := by
  rw [winning_state]
  simp only [List.all_eq_true, List.mem_range]
  constructor
  · intro h row hrowmem c hc
    obtain ⟨i, hi, hrowi⟩ := List.mem_iff_getElem.mp hrowmem
    obtain ⟨j, hj, hcj⟩ := List.mem_iff_getElem.mp hc
    have hi2 : i < g.lines := hm ▸ hi
    have hgi : g.map.getD i [] = row := by
      rw [List.getD_eq_getElem _ _ hi, hrowi]
    have hj2 : j < (g.map_save.getD i []).length := by
      rw [← hrow i hi2, hgi]; exact hj
    have := h i hi2 j hj2
    rw [hgi] at this
    rw [List.getD_eq_getElem _ _ hj, hcj] at this
    intro hbad
    rw [← unsatGoal_iff] at hbad
    rw [hbad] at this
    simp at this
  · intro h i hi j hj
    have hi1 : i < g.map.length := hm ▸ hi
    have hrowmem : g.map.getD i [] ∈ g.map := by
      rw [List.getD_eq_getElem _ _ hi1]; exact List.getElem_mem hi1
    have hj1 : j < (g.map.getD i []).length := by rw [hrow i hi]; exact hj
    have hcmem : (g.map.getD i []).getD j ' ' ∈ g.map.getD i [] := by
      rw [List.getD_eq_getElem _ _ hj1]; exact List.getElem_mem hj1
    have := h _ hrowmem _ hcmem
    rw [← unsatGoal_iff] at this
    simp only [Bool.not_eq_true] at this ⊢
    rw [this]
    rfl

/-- Witness for C3 at the concrete winning map. -/
theorem winning_state_iff_witness :
    (gWin.map.length = gWin.lines ∧
      (∀ i < gWin.lines, (gWin.map.getD i []).length = (gWin.map_save.getD i []).length)) ∧
    (winning_state gWin = true ↔
      ∀ row ∈ gWin.map, ∀ c ∈ row, ¬(c = 'G' ∨ ('I' ≤ c ∧ c ≤ 'Q'))) :=
  ⟨⟨by decide, by decide⟩, winning_state_iff gWin (by decide) (by decide)⟩

/-! ### Claim C8: the packed size -/

/-- C8: `getPackedSize` on the 2-by-2 one-piece map returns 3, the BIT
count `atom * num_pieces`, not the byte count `ceil(3 / 8) = 1` promised
by its own doc comment; the callers allocate `getPackedSize` many bytes. -/
theorem getPackedSize_is_bit_count :
    getPackedSize gPack = 3 ∧ (getPackedSize gPack + 7) / 8 = 1 ∧
      getPackedSize gPack ≠ (getPackedSize gPack + 7) / 8 := by decide

/-! ### Claim C9: the expansion-rate statistic -/

/-- C9: the printed expansion rate on a run with 1 expanded node over 2
seconds is `(1 + 1) / 2 = 1`, not `expanded / elapsed = 1 / 2`: the code
divides `dequeued + 1`, not the `Expanded nodes` count, by the elapsed
time. -/
theorem nodes_per_second_off_by_one :
    nodesExpandedPerSecond 1 2 = 1 ∧ (1 : ℚ) / 2 ≠ 1 := by
  constructor
  · norm_num [nodesExpandedPerSecond]
  · norm_num

/-! ### Claim C10: solution strings are never NULL -/

/-- C10: `duplicate_state` maps a NULL or empty solution to a non-NULL
empty string, every duplicate carries a non-NULL solution, and every
child built by `applyAction` carries a non-NULL solution; since every
enqueued state is produced by one of these two functions, every enqueued
state carries a non-NULL, terminated solution string. -/
theorem duplicate_soln_nonnull :
    (∀ g : Gate, g.soln = none ∨ g.soln = some [] →
      (duplicate_state g).soln = some []) ∧
    (∀ g : Gate, (duplicate_state g).soln.isSome = true) ∧
    (∀ (f : Mv) (g : Gate) (p d : Char),
      ((applyAction f g p d).1).soln.isSome = true) := by
  refine ⟨?_, ?_, ?_⟩
  · intro g h
    rcases h with h | h <;> simp [duplicate_state, h]
  · intro g
    rcases hg : g.soln with _ | s
    · simp [duplicate_state, hg]
    · simp only [duplicate_state, hg]
      split <;> simp
  · intro f g p d
    rw [applyAction]
    split <;> simp [applyChild]

/-- Witness for C10 at a state with a NULL solution. -/
theorem duplicate_soln_nonnull_witness :
    (gNW.soln = none ∨ gNW.soln = some []) ∧ (duplicate_state gNW).soln = some [] :=
  ⟨Or.inl rfl, duplicate_soln_nonnull.1 gNW (Or.inl rfl)⟩

/-! ### Claim C2: move acceptance and conservation -/

/-- Reading within the copied prefix of a piece array sees the original
entry. -/
lemma getD_take_of_lt {α : Type} (l : List α) (n j : Nat) (d : α) (h : j < n) :
    (l.take n).getD j d = l.getD j d := by
  rw [List.getD_eq_getElem?_getD, List.getD_eq_getElem?_getD, List.getElem?_take]
  simp [h]

/-- C2: under the `move_one_step` contract, `applyAction` accepts (returns
1) iff the named piece's coordinates in the child differ from the parent;
on acceptance only the named piece moves and it moves one cell matching
the direction; on rejection every piece's coordinates are unchanged. -/
theorem applyAction_move_conservation (f : Mv) (hf : MoveSpec f) (s : Gate) (p d : Char)
    (hidx : pieceIndex p < s.num_pieces)
    (hlx : s.num_pieces ≤ s.piece_x.length)
    (hly : s.num_pieces ≤ s.piece_y.length) :
    ((applyAction f s p d).2 = 1 ↔
      ¬((applyAction f s p d).1.piece_x.getD (pieceIndex p) 0 = s.piece_x.getD (pieceIndex p) 0 ∧
        (applyAction f s p d).1.piece_y.getD (pieceIndex p) 0 = s.piece_y.getD (pieceIndex p) 0)) ∧
    ((applyAction f s p d).2 = 1 →
      (∀ j < s.num_pieces, j ≠ pieceIndex p →
        (applyAction f s p d).1.piece_x.getD j 0 = s.piece_x.getD j 0 ∧
        (applyAction f s p d).1.piece_y.getD j 0 = s.piece_y.getD j 0) ∧
      unitStep d (s.piece_x.getD (pieceIndex p) 0) (s.piece_y.getD (pieceIndex p) 0)
        ((applyAction f s p d).1.piece_x.getD (pieceIndex p) 0)
        ((applyAction f s p d).1.piece_y.getD (pieceIndex p) 0)) ∧
    ((applyAction f s p d).2 = 0 → coordsEq (applyAction f s p d).1 s s.num_pieces) := by
  set N := s.num_pieces with hN
  set idx := pieceIndex p with hidxdef
  set dup := duplicate_state s with hdup
  set temp := f dup p d with htemp
  obtain ⟨hlenx, hleny, hcase⟩ := hf dup p d
  have hdupN : dup.num_pieces = N := rfl
  have hdupx : dup.piece_x = s.piece_x.take N := rfl
  have hdupy : dup.piece_y = s.piece_y.take N := rfl
  have hdlx : dup.piece_x.length = N := by
    rw [hdupx, List.length_take]; omega
  have hdly : dup.piece_y.length = N := by
    rw [hdupy, List.length_take]; omega
  have htlx : temp.piece_x.length = N := by rw [hlenx, hdlx]
  have htly : temp.piece_y.length = N := by rw [hleny, hdly]
  -- the child's piece arrays are exactly the collaborator's arrays
  have hchx : (applyChild f s p d).piece_x = temp.piece_x := by
    show temp.piece_x.take dup.num_pieces ++ dup.piece_x.drop dup.num_pieces = temp.piece_x
    rw [hdupN, List.take_of_length_le (le_of_eq htlx),
      List.drop_eq_nil_of_le (le_of_eq hdlx), List.append_nil]
  have hchy : (applyChild f s p d).piece_y = temp.piece_y := by
    show temp.piece_y.take dup.num_pieces ++ dup.piece_y.drop dup.num_pieces = temp.piece_y
    rw [hdupN, List.take_of_length_le (le_of_eq htly),
      List.drop_eq_nil_of_le (le_of_eq hdly), List.append_nil]
  have hdupcx : ∀ j < N, dup.piece_x.getD j 0 = s.piece_x.getD j 0 := by
    intro j hj; rw [hdupx]; exact getD_take_of_lt _ _ _ _ hj
  have hdupcy : ∀ j < N, dup.piece_y.getD j 0 = s.piece_y.getD j 0 := by
    intro j hj; rw [hdupy]; exact getD_take_of_lt _ _ _ _ hj
  have hfst : (applyAction f s p d).1 = applyChild f s p d := by
    rw [applyAction]; split <;> rfl
  have hsnd : (applyAction f s p d).2 =
      (if (applyChild f s p d).piece_x.getD idx 0 ≠ s.piece_x.getD idx 0 ∨
          (applyChild f s p d).piece_y.getD idx 0 ≠ s.piece_y.getD idx 0 then 1 else 0) := by
    rw [applyAction]; split <;> simp_all
  rcases hcase with hun | ⟨hoth, hstep⟩
  · -- the motion was blocked: every coordinate is unchanged
    have hall : ∀ j < N, (applyChild f s p d).piece_x.getD j 0 = s.piece_x.getD j 0 ∧
        (applyChild f s p d).piece_y.getD j 0 = s.piece_y.getD j 0 := by
      intro j hj
      obtain ⟨h1, h2⟩ := hun j (hdupN ▸ hj)
      rw [hchx, hchy]
      exact ⟨h1.trans (hdupcx j hj), h2.trans (hdupcy j hj)⟩
    have hcnd : ¬((applyChild f s p d).piece_x.getD idx 0 ≠ s.piece_x.getD idx 0 ∨
        (applyChild f s p d).piece_y.getD idx 0 ≠ s.piece_y.getD idx 0) := by
      obtain ⟨h1, h2⟩ := hall idx hidx
      push_neg
      exact ⟨h1, h2⟩
    have hr : (applyAction f s p d).2 = 0 := by rw [hsnd, if_neg hcnd]
    refine ⟨?_, ?_, ?_⟩
    · rw [hr]
      constructor
      · intro h; exact absurd h (by norm_num)
      · intro h
        exfalso
        obtain ⟨h1, h2⟩ := hall idx hidx
        rw [hfst] at h
        exact h ⟨h1, h2⟩
    · intro h; rw [hr] at h; exact absurd h (by norm_num)
    · intro _
      intro j hj
      rw [hfst]
      exact hall j hj
  · -- the named piece moved one cell; every other piece is unchanged
    have hothers : ∀ j < N, j ≠ idx →
        (applyChild f s p d).piece_x.getD j 0 = s.piece_x.getD j 0 ∧
        (applyChild f s p d).piece_y.getD j 0 = s.piece_y.getD j 0 := by
      intro j hj hne
      obtain ⟨h1, h2⟩ := hoth j (hdupN ▸ hj) hne
      rw [hchx, hchy]
      exact ⟨h1.trans (hdupcx j hj), h2.trans (hdupcy j hj)⟩
    have hstep2 : unitStep d (s.piece_x.getD idx 0) (s.piece_y.getD idx 0)
        ((applyChild f s p d).piece_x.getD idx 0) ((applyChild f s p d).piece_y.getD idx 0) := by
      rw [hchx, hchy]
      rw [hdupcx idx hidx, hdupcy idx hidx] at hstep
      exact hstep
    have hchanged : (applyChild f s p d).piece_x.getD idx 0 ≠ s.piece_x.getD idx 0 ∨
        (applyChild f s p d).piece_y.getD idx 0 ≠ s.piece_y.getD idx 0 := by
      rcases hstep2 with ⟨_, hx, hy⟩ | ⟨_, hx, hy⟩ | ⟨_, hx, hy⟩ | ⟨_, hx, hy⟩
      · right; omega
      · right; omega
      · left; omega
      · left; omega
    have hr : (applyAction f s p d).2 = 1 := by rw [hsnd, if_pos hchanged]
    refine ⟨?_, ?_, ?_⟩
    · rw [hr, hfst]
      constructor
      · intro _ hcon
        rcases hchanged with hx | hy
        · exact hx hcon.1
        · exact hy hcon.2
      · intro _; rfl
    · intro _
      rw [hfst]
      exact ⟨fun j hj hne => hothers j hj hne, hstep2⟩
    · intro h; rw [hr] at h; exact absurd h (by norm_num)

/-- The always-blocked collaborator satisfies the `move_one_step`
contract. -/
lemma mv0_spec : MoveSpec mv0 := by
  intro g p d
  exact ⟨rfl, rfl, Or.inl (fun j _ => ⟨rfl, rfl⟩)⟩

/-- Witness for C2 at a concrete state and the always-blocked
collaborator. -/
theorem applyAction_move_conservation_witness :
    (pieceIndex '0' < gNW.num_pieces ∧ gNW.num_pieces ≤ gNW.piece_x.length ∧
      gNW.num_pieces ≤ gNW.piece_y.length) ∧
    (((applyAction mv0 gNW '0' 'u').2 = 1 ↔
      ¬((applyAction mv0 gNW '0' 'u').1.piece_x.getD (pieceIndex '0') 0 =
          gNW.piece_x.getD (pieceIndex '0') 0 ∧
        (applyAction mv0 gNW '0' 'u').1.piece_y.getD (pieceIndex '0') 0 =
          gNW.piece_y.getD (pieceIndex '0') 0)) ∧
    ((applyAction mv0 gNW '0' 'u').2 = 1 →
      (∀ j < gNW.num_pieces, j ≠ pieceIndex '0' →
        (applyAction mv0 gNW '0' 'u').1.piece_x.getD j 0 = gNW.piece_x.getD j 0 ∧
        (applyAction mv0 gNW '0' 'u').1.piece_y.getD j 0 = gNW.piece_y.getD j 0) ∧
      unitStep 'u' (gNW.piece_x.getD (pieceIndex '0') 0) (gNW.piece_y.getD (pieceIndex '0') 0)
        ((applyAction mv0 gNW '0' 'u').1.piece_x.getD (pieceIndex '0') 0)
        ((applyAction mv0 gNW '0' 'u').1.piece_y.getD (pieceIndex '0') 0)) ∧
    ((applyAction mv0 gNW '0' 'u').2 = 0 →
      coordsEq (applyAction mv0 gNW '0' 'u').1 gNW gNW.num_pieces)) :=
  ⟨⟨by decide, by decide, by decide⟩,
   applyAction_move_conservation mv0 mv0_spec gNW '0' 'u' (by decide) (by decide) (by decide)⟩

/-! ### Claim C4: encoder injectivity -/

/-- An LSB-first field always has its designated width. -/
lemma natBits_length (k n : Nat) : (natBits k n).length = k := by simp [natBits]

/-- A fixed-width LSB-first field determines its value when the value
fits in the width. -/
lemma natBits_inj {k a b : Nat} (ha : a < 2 ^ k) (hb : b < 2 ^ k)
    (h : natBits k a = natBits k b) : a = b := by
  apply Nat.eq_of_testBit_eq
  intro j
  by_cases hj : j < k
  · have h2 := congrArg (fun l => l.getD j false) h
    simp only [natBits] at h2
    rw [List.getD_eq_getElem _ _ (by simpa using hj),
        List.getD_eq_getElem _ _ (by simpa using hj)] at h2
    simpa using h2
  · push_neg at hj
    rw [Nat.testBit_lt_two_pow (lt_of_lt_of_le ha (Nat.pow_le_pow_right (by norm_num) hj)),
        Nat.testBit_lt_two_pow (lt_of_lt_of_le hb (Nat.pow_le_pow_right (by norm_num) hj))]

/-- Flattening equal-arity lists of equal-length chunks is injective. -/
lemma flatten_inj (L : Nat) : ∀ (l1 l2 : List (List Bool)),
    l1.length = l2.length → (∀ a ∈ l1, a.length = L) → (∀ a ∈ l2, a.length = L) →
    l1.flatten = l2.flatten → l1 = l2 := by
  intro l1
  induction l1 with
  | nil =>
    intro l2 hlen _ _ _
    cases l2 with
    | nil => rfl
    | cons b bs => simp at hlen
  | cons a as ih =>
    intro l2 hlen h1 h2 hf
    cases l2 with
    | nil => simp at hlen
    | cons b bs =>
      simp only [List.flatten_cons] at hf
      have hab : a.length = b.length := by
        rw [h1 a (List.mem_cons_self a as), h2 b (List.mem_cons_self b bs)]
      obtain ⟨he, ht⟩ := List.append_inj hf hab
      have : as = bs := by
        refine ih bs ?_ ?_ ?_ ht
        · simpa using hlen
        · intro x hx; exact h1 x (List.mem_cons_of_mem a hx)
        · intro x hx; exact h2 x (List.mem_cons_of_mem b hx)
      rw [he, this]

/-- C4: the packed key determines the piece coordinate tuples: two states
with the same piece count, height and width, whose coordinates fit in the
encoder field widths, and whose `packMap` outputs agree bit for bit, have
identical piece coordinates. -/
theorem packMap_injective (g1 g2 : Gate)
    (hn : g1.num_pieces = g2.num_pieces)
    (hh : g1.lines = g2.lines)
    (hw : g1.num_chars_map / g1.lines = g2.num_chars_map / g2.lines)
    (hb1 : ∀ i < g1.num_pieces,
      g1.piece_y.getD i 0 < 2 ^ calcBits g1.lines ∧
      g1.piece_x.getD i 0 < 2 ^ calcBits (g1.num_chars_map / g1.lines))
    (hb2 : ∀ i < g2.num_pieces,
      g2.piece_y.getD i 0 < 2 ^ calcBits g2.lines ∧
      g2.piece_x.getD i 0 < 2 ^ calcBits (g2.num_chars_map / g2.lines))
    (hkey : packMapBits g1 = packMapBits g2) :
    ∀ i < g1.num_pieces,
      g1.piece_x.getD i 0 = g2.piece_x.getD i 0 ∧
      g1.piece_y.getD i 0 = g2.piece_y.getD i 0 := by
  have hkey2 :
      ((List.range g1.num_pieces).map (fun i =>
        natBits (calcBits g1.num_pieces) i ++
        natBits (calcBits g1.lines) (g1.piece_y.getD i 0) ++
        natBits (calcBits (g1.num_chars_map / g1.lines)) (g1.piece_x.getD i 0))).flatten =
      ((List.range g1.num_pieces).map (fun i =>
        natBits (calcBits g1.num_pieces) i ++
        natBits (calcBits g1.lines) (g2.piece_y.getD i 0) ++
        natBits (calcBits (g1.num_chars_map / g1.lines)) (g2.piece_x.getD i 0))).flatten := by
    have h2 : packMapBits g2 =
        ((List.range g1.num_pieces).map (fun i =>
          natBits (calcBits g1.num_pieces) i ++
          natBits (calcBits g1.lines) (g2.piece_y.getD i 0) ++
          natBits (calcBits (g1.num_chars_map / g1.lines)) (g2.piece_x.getD i 0))).flatten := by
      rw [packMapBits, ← hw, ← hh, ← hn]
    rw [← h2, ← hkey]
    rfl
  have hmaps := flatten_inj
    (calcBits g1.num_pieces + (calcBits g1.lines + calcBits (g1.num_chars_map / g1.lines)))
    _ _ (by simp) ?hl1 ?hl2 hkey2
  case hl1 =>
    intro a ha
    obtain ⟨i, _, rfl⟩ := List.mem_map.mp ha
    simp [natBits_length]
  case hl2 =>
    intro a ha
    obtain ⟨i, _, rfl⟩ := List.mem_map.mp ha
    simp [natBits_length]
  intro i hi
  have hF := List.map_inj_left.mp hmaps i (List.mem_range.mpr hi)
  obtain ⟨hAB, hCeq⟩ := List.append_inj hF (by simp [natBits_length])
  obtain ⟨_, hBeq⟩ := List.append_inj hAB rfl
  have hb2i := hb2 i (hn ▸ hi)
  rw [← hw, ← hh] at hb2i
  exact ⟨natBits_inj (hb1 i hi).2 hb2i.2 hCeq, natBits_inj (hb1 i hi).1 hb2i.1 hBeq⟩

/-- Witness for C4 at a concrete state. -/
theorem packMap_injective_witness :
    (gWin.num_pieces = gWin.num_pieces ∧ gWin.lines = gWin.lines ∧
      gWin.num_chars_map / gWin.lines = gWin.num_chars_map / gWin.lines ∧
      (∀ i < gWin.num_pieces, gWin.piece_y.getD i 0 < 2 ^ calcBits gWin.lines ∧
        gWin.piece_x.getD i 0 < 2 ^ calcBits (gWin.num_chars_map / gWin.lines)) ∧
      packMapBits gWin = packMapBits gWin) ∧
    (∀ i < gWin.num_pieces, gWin.piece_x.getD i 0 = gWin.piece_x.getD i 0 ∧
      gWin.piece_y.getD i 0 = gWin.piece_y.getD i 0) :=
  ⟨⟨rfl, rfl, rfl, by decide, rfl⟩,
   packMap_injective gWin gWin rfl rfl rfl (by decide) (by decide) rfl⟩

/-! ### Claims C1, C5, C6, C7: the three search loops -/

/-- A fold preserves any property each step preserves. -/
lemma foldl_preserve {α β : Type} (P : α → Prop) (step : α → β → α)
    (h : ∀ a b, P a → P (step a b)) : ∀ (l : List β) (a : α), P a → P (l.foldl step a) := by
  intro l
  induction l with
  | nil => exact fun a ha => ha
  | cons b bs ih => intro a ha; exact ih _ (h a b ha)

/-- One candidate step of `algo2` keeps `generated = childPushes + 1` and
`duplicated = presentHits`. -/
lemma algo2Step_counts (f : Mv) (cur : Gate) (st : St2) (pd : Nat × Char)
    (h : st.enqueued = st.childPushes + 1 ∧ st.duplicatedNodes = st.presentHits) :
    (algo2Step f cur st pd).enqueued = (algo2Step f cur st pd).childPushes + 1 ∧
    (algo2Step f cur st pd).duplicatedNodes = (algo2Step f cur st pd).presentHits := by
  rw [algo2Step]
  split
  · exact h
  · dsimp only
    split
    · simpa using h
    · simpa using h

/-- The `algo2` BFS loop keeps `generated = childPushes + 1` and
`duplicated = presentHits`. -/
lemma algo2Loop_counts (f : Mv) (N : Nat) :
    ∀ (fuel : Nat) (st : St2) (deq : Nat) (out : Algo2Stats),
      st.enqueued = st.childPushes + 1 → st.duplicatedNodes = st.presentHits →
      algo2Loop f N fuel st deq = some out →
      out.enqueued = out.childPushes + 1 ∧ out.duplicatedNodes = out.presentHits := by
  intro fuel
  induction fuel with
  | zero => intro st deq out _ _ h; exact absurd h (by simp [algo2Loop])
  | succ fuel ih =>
    intro st deq out h1 h2 hrun
    rw [algo2Loop] at hrun
    cases hq : st.queue with
    | nil =>
      rw [hq] at hrun
      simp only [Option.some.injEq] at hrun
      rw [← hrun]
      exact ⟨h1, h2⟩
    | cons cur rest =>
      rw [hq] at hrun
      simp only at hrun
      split at hrun
      · simp only [Option.some.injEq] at hrun
        rw [← hrun]
        exact ⟨h1, h2⟩
      · have hP := foldl_preserve
          (fun s => s.enqueued = s.childPushes + 1 ∧ s.duplicatedNodes = s.presentHits)
          (algo2Step f cur) (fun a b hp => algo2Step_counts f cur a b hp)
          (candList N) { st with queue := rest } ⟨h1, h2⟩
        exact ih _ _ _ hP.1 hP.2 hrun

/-- C7: at the end of any `algo2` run, the `generated` counter equals the
number of children that passed the duplicate check and were enqueued plus
one for the initial state, and the `duplicated` counter equals the number
of children the radix set reported PRESENT (which are therefore never
counted as generated). -/
theorem algo2_generated_accounting (f : Mv) (fuel : Nat) (init : Gate) (out : Algo2Stats)
    (hrun : algo2Run f fuel init = some out) :
    out.enqueued = out.childPushes + 1 ∧ out.duplicatedNodes = out.presentHits :=
  algo2Loop_counts f init.num_pieces fuel _ 0 out rfl rfl hrun

/-- The successor loops try exactly `4 * num_pieces` candidates. -/
lemma candList_length (n : Nat) : (candList n).length = 4 * n := by
  induction n with
  | zero => rfl
  | succ m ih =>
    rw [candList, List.range_succ, List.map_append, List.flatten_append]
    simp only [List.length_append]
    rw [candList] at ih
    rw [ih]
    simp [dirChars]
    ring

/-- A fold whose steps change two measures in lockstep keeps their
difference. -/
lemma foldl_lockstep {α β : Type} (q e : α → Nat) (step : α → β → α)
    (h : ∀ a b, q (step a b) + e a = e (step a b) + q a) :
    ∀ (l : List β) (a : α), q (l.foldl step a) + e a = e (l.foldl step a) + q a := by
  intro l
  induction l with
  | nil => intro a; simp only [List.foldl_nil]; omega
  | cons b bs ih =>
    intro a
    have h1 := h a b
    have h2 := ih (step a b)
    simp only [List.foldl_cons]
    omega

/-- A fold whose steps increase a measure by at most one increases it by
at most the list length. -/
lemma foldl_bounded {α β : Type} (m : α → Nat) (step : α → β → α)
    (h : ∀ a b, m (step a b) ≤ m a + 1) :
    ∀ (l : List β) (a : α), m (l.foldl step a) ≤ m a + l.length := by
  intro l
  induction l with
  | nil => intro a; simp
  | cons b bs ih =>
    intro a
    have h1 := h a b
    have h2 := ih (step a b)
    simp only [List.foldl_cons, List.length_cons]
    omega

/-- An `algo1` candidate step enqueues exactly as often as it counts a
generated node. -/
lemma algo1Step_lockstep (f : Mv) (cur : Gate) (a : St1) (b : Nat × Char) :
    (algo1Step f cur a b).queue.length + a.enqueued =
      (algo1Step f cur a b).enqueued + a.queue.length := by
  rw [algo1Step]
  split
  · omega
  · simp only [List.length_append, List.length_cons, List.length_nil]
    omega

/-- An `algo1` candidate step generates at most one node. -/
lemma algo1Step_bound (f : Mv) (cur : Gate) (a : St1) (b : Nat × Char) :
    (algo1Step f cur a b).enqueued ≤ a.enqueued + 1 := by
  rw [algo1Step]
  split
  · omega
  · simp

/-- Counter invariant of the `algo1` BFS loop: dequeues plus the open
list balance the generated count plus one, and the generated count is
bounded by the expansions. -/
lemma algo1Loop_inv (f : Mv) (N : Nat) :
    ∀ (fuel : Nat) (st : St1) (deq : Nat) (out : RunStats),
      deq + st.queue.length = st.enqueued + 1 →
      st.enqueued ≤ deq * (4 * N + 1) + (if st.queue.isEmpty then 0 else 1) →
      algo1Loop f N fuel st deq = some out →
      out.dequeued + out.queueLen = out.enqueued + 1 ∧
      out.duplicatedNodes = 0 ∧
      out.enqueued ≤ out.dequeued * (4 * N + 1) := by
  intro fuel
  induction fuel with
  | zero => intro st deq out _ _ h; exact absurd h (by simp [algo1Loop])
  | succ fuel ih =>
    intro st deq out h1 h2 hrun
    rw [algo1Loop] at hrun
    cases hq : st.queue with
    | nil =>
      rw [hq] at hrun
      simp only [Option.some.injEq] at hrun
      rw [hq] at h1
      rw [hq] at h2
      simp at h2
      rw [← hrun]
      refine ⟨by simpa using h1, rfl, ?_⟩
      simpa using h2
    | cons cur rest =>
      rw [hq] at hrun
      rw [hq] at h1
      have h2n : st.enqueued ≤ deq * (4 * N + 1) + 1 := by
        rw [hq] at h2; simpa using h2
      simp only [List.length_cons] at h1
      simp only at hrun
      have hmul : (deq + 1) * (4 * N + 1) = deq * (4 * N + 1) + (4 * N + 1) := by ring
      split at hrun
      · -- winning branch
        simp only [Option.some.injEq] at hrun
        rw [← hrun]
        refine ⟨by simp only; omega, rfl, by simp only; omega⟩
      · -- expansion branch
        have hlock := foldl_lockstep (fun s => s.queue.length) (fun s => s.enqueued)
          (algo1Step f cur) (algo1Step_lockstep f cur) (candList N) ⟨rest, st.enqueued⟩
        have hbnd := foldl_bounded (fun s => s.enqueued) (algo1Step f cur)
          (algo1Step_bound f cur) (candList N) ⟨rest, st.enqueued⟩
        rw [candList_length] at hbnd
        simp only at hlock hbnd
        refine ih _ _ _ ?_ ?_ hrun
        · omega
        · rcases hq2 : ((candList N).foldl (algo1Step f cur) ⟨rest, st.enqueued⟩).queue with _ | _
          · simp only [hq2, List.isEmpty_nil]
            omega
          · simp only [hq2, List.isEmpty_cons]
            omega

/-- An `algo2` candidate step enqueues exactly as often as it counts a
generated node. -/
lemma algo2Step_lockstep (f : Mv) (cur : Gate) (a : St2) (b : Nat × Char) :
    (algo2Step f cur a b).queue.length + a.enqueued =
      (algo2Step f cur a b).enqueued + a.queue.length := by
  rw [algo2Step]
  split
  · omega
  · dsimp only
    split
    · dsimp only
      omega
    · simp only [List.length_append, List.length_cons, List.length_nil]
      omega

/-- An `algo2` candidate step adds at most one to generated plus
duplicated. -/
lemma algo2Step_bound (f : Mv) (cur : Gate) (a : St2) (b : Nat × Char) :
    (algo2Step f cur a b).enqueued + (algo2Step f cur a b).duplicatedNodes ≤
      a.enqueued + a.duplicatedNodes + 1 := by
  rw [algo2Step]
  split
  · omega
  · dsimp only
    split
    · dsimp only
      omega
    · dsimp only
      omega

/-- Counter invariant of the `algo2` BFS loop. -/
lemma algo2Loop_inv (f : Mv) (N : Nat) :
    ∀ (fuel : Nat) (st : St2) (deq : Nat) (out : Algo2Stats),
      deq + st.queue.length = st.enqueued →
      st.enqueued + st.duplicatedNodes ≤
        deq * (4 * N + 1) + (if st.queue.isEmpty then 0 else 1) →
      algo2Loop f N fuel st deq = some out →
      out.dequeued + out.queueLen = out.enqueued ∧
      out.duplicatedNodes + out.enqueued ≤ out.dequeued * (4 * N + 1) := by
  intro fuel
  induction fuel with
  | zero => intro st deq out _ _ h; exact absurd h (by simp [algo2Loop])
  | succ fuel ih =>
    intro st deq out h1 h2 hrun
    rw [algo2Loop] at hrun
    cases hq : st.queue with
    | nil =>
      rw [hq] at hrun
      simp only [Option.some.injEq] at hrun
      rw [hq] at h1
      simp only [List.length_nil] at h1
      have h2n : st.enqueued + st.duplicatedNodes ≤ deq * (4 * N + 1) := by
        rw [hq] at h2; simpa using h2
      rw [← hrun]
      refine ⟨?_, ?_⟩ <;> (dsimp only; omega)
    | cons cur rest =>
      rw [hq] at hrun
      rw [hq] at h1
      have h2n : st.enqueued + st.duplicatedNodes ≤ deq * (4 * N + 1) + 1 := by
        rw [hq] at h2; simpa using h2
      simp only [List.length_cons] at h1
      simp only at hrun
      have hmul : (deq + 1) * (4 * N + 1) = deq * (4 * N + 1) + (4 * N + 1) := by ring
      split at hrun
      · simp only [Option.some.injEq] at hrun
        rw [← hrun]
        refine ⟨?_, ?_⟩ <;> (dsimp only; omega)
      · have hlock := foldl_lockstep (fun s => s.queue.length) (fun s => s.enqueued)
          (algo2Step f cur) (algo2Step_lockstep f cur) (candList N) { st with queue := rest }
        have hbnd := foldl_bounded (fun s => s.enqueued + s.duplicatedNodes) (algo2Step f cur)
          (algo2Step_bound f cur) (candList N) { st with queue := rest }
        rw [candList_length] at hbnd
        simp only at hlock hbnd
        refine ih _ _ _ ?_ ?_ hrun
        · omega
        · rcases hq2 : ((candList N).foldl (algo2Step f cur) { st with queue := rest }).queue with _ | _
          · simp only [hq2, List.isEmpty_nil]
            omega
          · simp only [hq2, List.isEmpty_cons]
            omega

/-- An `algo3` candidate step enqueues exactly as often as it counts a
generated node. -/
lemma algo3Step_lockstep (f : Mv) (aS n w : Nat) (cur : Gate) (a : St3) (b : Nat × Char) :
    (algo3Step f aS n w cur a b).queue.length + a.enqueued =
      (algo3Step f aS n w cur a b).enqueued + a.queue.length := by
  rw [algo3Step]
  split
  · omega
  · dsimp only
    split
    · simp only [List.length_append, List.length_cons, List.length_nil]
      omega
    · dsimp only
      omega

/-- An `algo3` candidate step adds at most one to generated plus
duplicated. -/
lemma algo3Step_bound (f : Mv) (aS n w : Nat) (cur : Gate) (a : St3) (b : Nat × Char) :
    (algo3Step f aS n w cur a b).enqueued + (algo3Step f aS n w cur a b).duplicatedNodes ≤
      a.enqueued + a.duplicatedNodes + 1 := by
  rw [algo3Step]
  split
  · omega
  · dsimp only
    split
    · dsimp only
      omega
    · dsimp only
      omega

/-- Counter invariant of one width iteration of `algo3`; a non-winning
exit leaves an empty open list. -/
lemma algo3BFS_inv (f : Mv) (aS n w : Nat) :
    ∀ (fuel : Nat) (st : St3) (deq : Nat) (out : RunStats),
      deq + st.queue.length = st.enqueued →
      st.enqueued + st.duplicatedNodes ≤
        deq * (4 * n + 1) + (if st.queue.isEmpty then 0 else 1) →
      algo3BFS f aS n w fuel st deq = some out →
      out.dequeued + out.queueLen = out.enqueued ∧
      out.duplicatedNodes + out.enqueued ≤ out.dequeued * (4 * n + 1) ∧
      (out.hasWon = false → out.queueLen = 0) := by
  intro fuel
  induction fuel with
  | zero => intro st deq out _ _ h; exact absurd h (by simp [algo3BFS])
  | succ fuel ih =>
    intro st deq out h1 h2 hrun
    rw [algo3BFS] at hrun
    cases hq : st.queue with
    | nil =>
      rw [hq] at hrun
      simp only [Option.some.injEq] at hrun
      rw [hq] at h1
      simp only [List.length_nil] at h1
      have h2n : st.enqueued + st.duplicatedNodes ≤ deq * (4 * n + 1) := by
        rw [hq] at h2; simpa using h2
      rw [← hrun]
      refine ⟨?_, ?_, fun _ => rfl⟩ <;> (dsimp only; omega)
    | cons cur rest =>
      rw [hq] at hrun
      rw [hq] at h1
      have h2n : st.enqueued + st.duplicatedNodes ≤ deq * (4 * n + 1) + 1 := by
        rw [hq] at h2; simpa using h2
      simp only [List.length_cons] at h1
      simp only at hrun
      have hmul : (deq + 1) * (4 * n + 1) = deq * (4 * n + 1) + (4 * n + 1) := by ring
      split at hrun
      · simp only [Option.some.injEq] at hrun
        rw [← hrun]
        refine ⟨?_, ?_, ?_⟩
        · dsimp only; omega
        · dsimp only; omega
        · intro h; simp at h
      · have hlock := foldl_lockstep (fun s => s.queue.length) (fun s => s.enqueued)
          (algo3Step f aS n w cur) (algo3Step_lockstep f aS n w cur)
          (candList n) { st with queue := rest }
        have hbnd := foldl_bounded (fun s => s.enqueued + s.duplicatedNodes)
          (algo3Step f aS n w cur) (algo3Step_bound f aS n w cur)
          (candList n) { st with queue := rest }
        rw [candList_length] at hbnd
        simp only at hlock hbnd
        refine ih _ _ _ ?_ ?_ hrun
        · omega
        · rcases hq2 : ((candList n).foldl (algo3Step f aS n w cur) { st with queue := rest }).queue with _ | _
          · simp only [hq2, List.isEmpty_nil]
            omega
          · simp only [hq2, List.isEmpty_cons]
            omega

/-- Counter invariant of the width loop of `algo3`. -/
lemma algo3Outer_inv (f : Mv) (fuel : Nat) (init : Gate) (aS n : Nat) :
    ∀ (wRem w enq dup deq : Nat) (out : RunStats),
      deq = enq →
      enq + dup ≤ deq * (4 * n + 1) →
      algo3Outer f fuel init aS n wRem w enq dup deq = some out →
      out.dequeued + out.queueLen = out.enqueued ∧
      out.duplicatedNodes + out.enqueued ≤ out.dequeued * (4 * n + 1) := by
  intro wRem
  induction wRem with
  | zero =>
    intro w enq dup deq out h1 h2 hrun
    rw [algo3Outer] at hrun
    simp only [Option.some.injEq] at hrun
    rw [← hrun]
    refine ⟨?_, ?_⟩ <;> (dsimp only; omega)
  | succ wRem ih =>
    intro w enq dup deq out h1 h2 hrun
    rw [algo3Outer] at hrun
    rcases hiter : algo3Iter f fuel init aS n w enq dup deq with _ | out0
    · rw [hiter] at hrun; exact absurd hrun (by simp)
    · rw [hiter] at hrun
      simp only at hrun
      have hrun0 : algo3BFS f aS n w fuel
          ⟨insertGo aS n (packMapBits (duplicate_state init)) w 1 (List.replicate w []),
            [duplicate_state init], enq + 1, dup⟩ deq = some out0 := hiter
      have hbfs := algo3BFS_inv f aS n w fuel _ deq out0
        (by dsimp only; simp only [List.length_cons, List.length_nil]; omega)
        (by dsimp only; simp only [List.isEmpty_cons, Bool.false_eq_true, if_false]; omega)
        hrun0
      split at hrun
      · simp only [Option.some.injEq] at hrun
        rw [← hrun]
        exact ⟨hbfs.1, hbfs.2.1⟩
      · rename_i hc
        have hw0 : out0.hasWon = false := by simpa using hc
        have hql := hbfs.2.2 hw0
        refine ih _ _ _ _ _ ?_ ?_ hrun
        · have := hbfs.1
          omega
        · have := hbfs.2.1
          omega

/-- C5 (amended): at termination of any of the three algorithms,
`expanded + |queue| ≤ generated + 1`, and
`duplicated + generated ≤ expanded * (4 * num_pieces + 1)`.  The bound
claimed by the spec, `expanded * 4 * num_pieces`, fails for Algorithm 2
on a zero-piece instance, which counts the initial state as generated. -/
theorem counter_consistency (f : Mv) (fuel : Nat) (init : Gate) :
    (∀ out, algo1Run f fuel init = some out →
      out.dequeued + out.queueLen ≤ out.enqueued + 1 ∧
      out.duplicatedNodes + out.enqueued ≤ out.dequeued * (4 * init.num_pieces + 1)) ∧
    (∀ out, algo2Run f fuel init = some out →
      out.dequeued + out.queueLen ≤ out.enqueued + 1 ∧
      out.duplicatedNodes + out.enqueued ≤ out.dequeued * (4 * init.num_pieces + 1)) ∧
    (∀ out, algo3Run f fuel init = some out →
      out.dequeued + out.queueLen ≤ out.enqueued + 1 ∧
      out.duplicatedNodes + out.enqueued ≤ out.dequeued * (4 * init.num_pieces + 1)) := by
  refine ⟨?_, ?_, ?_⟩
  · intro out hrun
    have h := algo1Loop_inv f init.num_pieces fuel ⟨[duplicate_state init], 0⟩ 0 out
      (by simp) (by simp) hrun
    refine ⟨by omega, by have h1 := h.2.1; have h2 := h.2.2; omega⟩
  · intro out hrun
    have h := algo2Loop_inv f init.num_pieces fuel
      ⟨[packMapBits (duplicate_state init)], [duplicate_state init], 1, 0, 0, 0⟩ 0 out
      (by simp) (by simp) hrun
    refine ⟨by omega, h.2⟩
  · intro out hrun
    have h := algo3Outer_inv f fuel init
      (calcBits init.num_pieces + calcBits init.lines +
        calcBits (init.num_chars_map / init.lines)) init.num_pieces
      init.num_pieces 1 0 0 0 out rfl (by simp) hrun
    refine ⟨by omega, h.2⟩

/-- Counterexample to C5 as stated: `algo2` on a non-winning zero-piece
map terminates with `duplicated + generated = 1` while
`expanded * 4 * num_pieces = 0`. -/
theorem counter_consistency_cex :
    algo2Run mv0 2 gNW0 = some ⟨1, 1, 0, none, 0, false, 0, 0⟩ ∧
    ¬((0 : Nat) + 1 ≤ 1 * (4 * gNW0.num_pieces)) := by decide

/-- Witness for C5 on a concrete `algo1` run. -/
theorem counter_consistency_witness :
    algo1Run mv0 2 gNW = some ⟨1, 0, 0, none, 0, false⟩ ∧
    (1 + 0 ≤ 0 + 1 ∧ 0 + 0 ≤ 1 * (4 * gNW.num_pieces + 1)) :=
  ⟨by decide, (counter_consistency mv0 2 gNW).1 ⟨1, 0, 0, none, 0, false⟩ (by decide)⟩

/-- Duplication does not affect the winning test. -/
lemma winning_dup (g : Gate) : winning_state (duplicate_state g) = winning_state g := rfl

/-- Duplicating a state with a NULL or empty solution yields an empty
solution. -/
lemma dup_soln_empty (g : Gate) (h : g.soln = none ∨ g.soln = some []) :
    (duplicate_state g).soln = some [] := by
  rcases h with h | h <;> simp [duplicate_state, h]

/-- C6 (amended): on an already-winning initial map every algorithm
expands exactly one node and reports an empty solution (Algorithm 3
provided `num_pieces ≥ 1`; with zero pieces its width loop never runs);
the generated count is 0 for Algorithm 1 but 1 for BOTH Algorithms 2 and
3, each of which counts the initial state. -/
theorem winning_initial_behavior (f : Mv) (fuel : Nat) (init : Gate)
    (hwin : winning_state init = true)
    (hsoln : init.soln = none ∨ init.soln = some []) :
    algo1Run f (fuel + 1) init = some ⟨1, 0, 0, some [], 0, true⟩ ∧
    algo2Run f (fuel + 1) init = some ⟨1, 1, 0, some [], 0, true, 0, 0⟩ ∧
    (1 ≤ init.num_pieces →
      algo3Run f (fuel + 1) init = some ⟨1, 1, 0, some [], 0, true⟩) := by
  have hdwin : winning_state (duplicate_state init) = true := by
    rw [winning_dup]; exact hwin
  have hdsoln : (duplicate_state init).soln = some [] := dup_soln_empty init hsoln
  refine ⟨?_, ?_, ?_⟩
  · show algo1Loop f init.num_pieces (fuel + 1) ⟨[duplicate_state init], 0⟩ 0 = _
    rw [algo1Loop]
    simp [hdwin, hdsoln]
  · show algo2Loop f init.num_pieces (fuel + 1)
      ⟨[packMapBits (duplicate_state init)], [duplicate_state init], 1, 0, 0, 0⟩ 0 = _
    rw [algo2Loop]
    simp [hdwin, hdsoln]
  · intro hN
    obtain ⟨m, hm⟩ : ∃ m, init.num_pieces = m + 1 := ⟨init.num_pieces - 1, by omega⟩
    show algo3Outer f (fuel + 1) init
      (calcBits init.num_pieces + calcBits init.lines +
        calcBits (init.num_chars_map / init.lines)) init.num_pieces
      init.num_pieces 1 0 0 0 = _
    rw [hm, algo3Outer, algo3Iter, algo3BFS]
    simp [hdwin, hdsoln]

/-- Counterexample to C6 as stated: on a winning initial map `algo2`
reports `generated = 1`, not 0. -/
theorem winning_initial_behavior_cex :
    winning_state gWin = true ∧
    algo2Run mv0 1 gWin = some ⟨1, 1, 0, some [], 0, true, 0, 0⟩ ∧
    (1 : Nat) ≠ 0 := by decide

/-- Witness for C6: a concrete winning map run through `algo1`. -/
theorem winning_initial_behavior_witness :
    (winning_state gWin = true ∧ (gWin.soln = none ∨ gWin.soln = some [])) ∧
    algo1Run mv0 1 gWin = some ⟨1, 0, 0, some [], 0, true⟩ :=
  ⟨⟨by decide, Or.inl rfl⟩,
    (winning_initial_behavior mv0 0 gWin (by decide) (Or.inl rfl)).1⟩

/-- Reading a list at a freshly set index. -/
lemma getD_set_eq {α : Type} (l : List α) (i : Nat) (a d : α) (h : i < l.length) :
    (l.set i a).getD i d = a := by
  simp [List.getD, List.getElem?_set_self, h]

/-- Setting one index leaves the others unchanged. -/
lemma getD_set_ne {α : Type} (l : List α) (i j : Nat) (a d : α) (h : i ≠ j) :
    (l.set i a).getD j d = l.getD j d := by
  simp [List.getD, List.getElem?_set_ne h]

/-- Full characterisation of the novelty loop from subset size `s` for
`rem` more sizes: the flag is raised iff it was already raised or some
processed tree missed one of this key's subkeys AT ITS PRE-STATE (each
tree is checked before this key's subkeys are inserted into it, and trees
of other sizes are never touched); every processed tree ends up with the
key's subkeys inserted unconditionally; other trees are untouched. -/
lemma noveltyGo_spec (aS n : Nat) (key : List Bool) :
    ∀ (rem s : Nat) (novel : Bool) (trees : List (List (List Bool))),
      1 ≤ s → s + rem ≤ trees.length + 1 →
      ((noveltyGo aS n key rem s novel trees).1 = true ↔
        (novel = true ∨ ∃ t, s ≤ t ∧ t < s + rem ∧
          ∃ c ∈ subkeys aS n t key, c ∉ trees.getD (t - 1) [])) ∧
      (∀ t, s ≤ t → t < s + rem →
        (noveltyGo aS n key rem s novel trees).2.getD (t - 1) [] =
          insertAllNCr (trees.getD (t - 1) []) aS n t key) ∧
      (∀ j, (j < s - 1 ∨ s + rem - 1 ≤ j) →
        (noveltyGo aS n key rem s novel trees).2.getD j [] = trees.getD j []) ∧
      (noveltyGo aS n key rem s novel trees).2.length = trees.length := by
  intro rem
  induction rem with
  | zero =>
    intro s novel trees hs hlen
    rw [noveltyGo]
    refine ⟨?_, ?_, fun j _ => rfl, rfl⟩
    · constructor
      · exact fun h => Or.inl h
      · rintro (h | ⟨t, h1, h2, _⟩)
        · exact h
        · omega
    · intro t h1 h2
      omega
  | succ rem ih =>
    intro s novel trees hs hlen
    rw [noveltyGo]
    have hslen : s - 1 < trees.length := by omega
    have hlen2 : (trees.set (s - 1) (insertAllNCr (trees.getD (s - 1) []) aS n s key)).length =
        trees.length := List.length_set _ _ _
    have IH := ih (s + 1) (novel || anyMissingNCr (trees.getD (s - 1) []) aS n s key)
      (trees.set (s - 1) (insertAllNCr (trees.getD (s - 1) []) aS n s key))
      (by omega) (by rw [hlen2]; omega)
    obtain ⟨IH1, IH2, IH3, IH4⟩ := IH
    have hset_ne : ∀ t, s + 1 ≤ t →
        (trees.set (s - 1) (insertAllNCr (trees.getD (s - 1) []) aS n s key)).getD (t - 1) [] =
          trees.getD (t - 1) [] := by
      intro t ht
      exact getD_set_ne _ _ _ _ _ (by omega)
    refine ⟨?_, ?_, ?_, by rw [IH4, hlen2]⟩
    · rw [IH1]
      have hany : anyMissingNCr (trees.getD (s - 1) []) aS n s key = true ↔
          ∃ c ∈ subkeys aS n s key, c ∉ trees.getD (s - 1) [] := by
        simp [anyMissingNCr]
      constructor
      · rintro (hnov | ⟨t, h1, h2, c, hc, hcnot⟩)
        · rcases Bool.or_eq_true_iff.mp hnov with h | h
          · exact Or.inl h
          · obtain ⟨c, hc, hcnot⟩ := hany.mp h
            exact Or.inr ⟨s, le_refl s, by omega, c, hc, hcnot⟩
        · rw [hset_ne t h1] at hcnot
          exact Or.inr ⟨t, by omega, by omega, c, hc, hcnot⟩
      · rintro (hnov | ⟨t, h1, h2, c, hc, hcnot⟩)
        · exact Or.inl (by rw [hnov]; rfl)
        · rcases Nat.eq_or_lt_of_le h1 with heq | hlt
          · refine Or.inl ?_
            rw [Bool.or_eq_true_iff]
            refine Or.inr (hany.mpr ⟨c, ?_, ?_⟩)
            · rw [heq]; exact hc
            · rw [heq]; exact hcnot
          · refine Or.inr ⟨t, by omega, by omega, c, hc, ?_⟩
            rw [hset_ne t (by omega)]
            exact hcnot
    · intro t h1 h2
      rcases Nat.eq_or_lt_of_le h1 with heq | hlt
      · rw [← heq]
        rw [IH3 (s - 1) (Or.inl (by omega))]
        exact getD_set_eq _ _ _ _ hslen
      · rw [IH2 t (by omega) (by omega), hset_ne t (by omega)]
    · intro j hj
      rcases hj with hj | hj
      · rw [IH3 j (Or.inl (by omega))]
        exact getD_set_ne _ _ _ _ _ (by omega)
      · rw [IH3 j (Or.inr (by omega))]
        exact getD_set_ne _ _ _ _ _ (by omega)

/-- C1: in the `algo3` candidate step, an accepted child is enqueued iff
for some subset size `s` in `1..w` at least one `s`-combination of the
child's packed atoms was absent from tree `T[s]` at the moment of the
check, and for every `s` in `1..w` all `s`-combinations of the child's
atoms are inserted into `T[s]` unconditionally, whether or not the child
was found novel. -/
theorem novelty_check_and_insert (aS n w : Nat) (key : List Bool)
    (trees : List (List (List Bool))) (hlen : w ≤ trees.length) :
    ((noveltyLoop aS n w key trees).1 = true ↔
      ∃ s, 1 ≤ s ∧ s ≤ w ∧ ∃ c ∈ subkeys aS n s key, c ∉ trees.getD (s - 1) []) ∧
    (∀ s, 1 ≤ s → s ≤ w →
      ∀ c ∈ subkeys aS n s key, c ∈ (noveltyLoop aS n w key trees).2.getD (s - 1) []) ∧
    (∀ (f : Mv) (cur : Gate) (st : St3) (pd : Nat × Char),
      st.trees = trees →
      (applyAction f cur (pieceName pd.1) pd.2).2 ≠ 0 →
      packMapBits (applyAction f cur (pieceName pd.1) pd.2).1 = key →
      ((algo3Step f aS n w cur st pd).queue =
          st.queue ++ [(applyAction f cur (pieceName pd.1) pd.2).1] ↔
        (noveltyLoop aS n w key trees).1 = true)) := by
  obtain ⟨H1, H2, _, _⟩ := noveltyGo_spec aS n key w 1 false trees (le_refl 1) (by omega)
  refine ⟨?_, ?_, ?_⟩
  · rw [noveltyLoop, H1]
    constructor
    · rintro (h | ⟨t, h1, h2, hc⟩)
      · exact absurd h (by simp)
      · exact ⟨t, h1, by omega, hc⟩
    · rintro ⟨s, h1, h2, hc⟩
      exact Or.inr ⟨s, h1, by omega, hc⟩
  · intro s hs1 hs2 c hc
    rw [noveltyLoop, H2 s hs1 (by omega)]
    rw [insertAllNCr]
    exact List.mem_append_left _ hc
  · intro f cur st pd hst hr hkey
    rw [algo3Step, if_neg hr]
    dsimp only
    rw [hkey, hst]
    rcases hnt : (noveltyLoop aS n w key trees).1 with _ | _
    · simp
    · simp

/-- Witness for C7 on a concrete `algo2` run. -/
theorem algo2_generated_accounting_witness :
    algo2Run mv0 2 gNW0 = some ⟨1, 1, 0, none, 0, false, 0, 0⟩ ∧
    ((1 : Nat) = 0 + 1 ∧ (0 : Nat) = 0) :=
  ⟨by decide,
    algo2_generated_accounting mv0 2 gNW0 ⟨1, 1, 0, none, 0, false, 0, 0⟩ (by decide)⟩

/-- Witness for C1 at a one-piece key over a single empty tree. -/
theorem novelty_check_and_insert_witness :
    1 ≤ ([[]] : List (List (List Bool))).length ∧
    ((noveltyLoop 3 1 1 [false, false, false] [[]]).1 = true ↔
      ∃ s, 1 ≤ s ∧ s ≤ 1 ∧ ∃ c ∈ subkeys 3 1 s [false, false, false],
        c ∉ ([[]] : List (List (List Bool))).getD (s - 1) []) :=
  ⟨by decide, (novelty_check_and_insert 3 1 1 [false, false, false] [[]] (by decide)).1⟩
